import Mathlib

/-!
Verification development for the `combi` utilities polynomial module
(`src/utilities/src/polynomial.rs`): exact-arithmetic univariate polynomials
with integer coefficients, plus the modality classifier entry point.

Coefficient vectors (`Vec<i64>`) are embedded as `List Int`; `f64` values that
feed the classifier's sign analysis are embedded as `ℚ` so that evaluation is
exact and executable.  The `unimode` module is not part of the repository
snapshot (only `mod unimode;` and the caller `find_prob_unimode` appear), so
the classifier body is modelled from the specification, as marked below.
-/

namespace Combi

/-- Coefficient of a coefficient list at exponent `n`; positions past the end
of the list are zero (the polynomial represented is unchanged by trailing-zero
padding). -/
def coefAt (l : List Int) (n : Nat) : Int := l.getD n 0

/-- Embeds `struct Polynomial { coefs: Vec<i64>, var_name: String }`. -/
structure Polynomial where
  coefs : List Int
  var_name : String
deriving DecidableEq

/-- Embeds `enum Modality`; the `f64` mode payload is embedded as `ℚ`. -/
inductive Modality where
  | Unimodal : ℚ → Modality
  | Zero : Modality
  | Constant : Modality
  | Nonmodal : Modality
  | Multimodal : Modality
deriving DecidableEq

namespace Polynomial

/-- Embeds `Polynomial::new`. -/
def new : Polynomial := ⟨[], "p"⟩

/-- Embeds `Polynomial::of_vec` (the element-by-element copy of a `Vec<i64>`
is the identity on `List Int`). -/
def of_vec (coefs : List Int) : Polynomial := ⟨coefs, "p"⟩

/-- Embeds `Polynomial::monomial`: `vec![0; power]` followed by
`coefs.push(coef)`. -/
def monomial (coef : Int) (power : Nat) : Polynomial :=
  ⟨List.replicate power 0 ++ [coef], "p"⟩

/-- One step of the loop bodies in `add_vec_inplace`, `sub_vec_inplace` and
`mul`: `if k >= coefs.len() { coefs.push(v) } else { coefs[k] += v }`.
A `push` appends at the current end of the vector, whatever `k` is. -/
def bump (coefs : List Int) (k : Nat) (v : Int) : List Int :=
  if h : k < coefs.length then coefs.set k (coefs.get ⟨k, h⟩ + v) else coefs ++ [v]

/-- The enumerated `for (pos, y) in vs.iter().enumerate()` loop shape shared by
`add_vec_inplace`, `sub_vec_inplace` and the inner loop of `mul`: bump the
accumulator at consecutive indices `pos, pos+1, ...` with the values of `vs`. -/
def writeFrom (coefs : List Int) (pos : Nat) : List Int → List Int
  | [] => coefs
  | v :: vs => writeFrom (bump coefs pos v) (pos + 1) vs

/-- Embeds `Polynomial::add_vec_inplace`: `coefs[pos] += y` or `push(y)` for
each `(pos, y)` of `rhs.coefs`. -/
def add_vec_inplace (coefs : List Int) (rhs : Polynomial) : List Int :=
  writeFrom coefs 0 rhs.coefs

/-- Embeds `Polynomial::add`: copy the receiver's coefficients, run
`add_vec_inplace`, wrap with `of_vec`. -/
def add (p rhs : Polynomial) : Polynomial :=
  of_vec (add_vec_inplace p.coefs rhs)

/-- Embeds `Polynomial::add_inplace`: mutates the receiver's coefficient
vector, leaving its `var_name` in place. -/
def add_inplace (p rhs : Polynomial) : Polynomial :=
  { p with coefs := add_vec_inplace p.coefs rhs }

/-- Embeds `Polynomial::sub_vec_inplace`: `coefs[pos] -= y` or `push(-y)` for
each `(pos, y)` of `rhs.coefs`. -/
def sub_vec_inplace (coefs : List Int) (rhs : Polynomial) : List Int :=
  writeFrom coefs 0 (rhs.coefs.map (fun y => -y))

/-- Embeds `Polynomial::sub`. -/
def sub (p rhs : Polynomial) : Polynomial :=
  of_vec (sub_vec_inplace p.coefs rhs)

/-- Embeds `Polynomial::sub_inplace`. -/
def sub_inplace (p rhs : Polynomial) : Polynomial :=
  { p with coefs := sub_vec_inplace p.coefs rhs }

/-- The outer `for (i, xi) in self.coefs.iter().enumerate()` loop of
`Polynomial::mul`; each row runs the inner loop, which bumps index `i + j`
with `xi * yj` for `(j, yj)` over `b`. -/
def mulOuter (coefs : List Int) (i : Nat) (b : List Int) : List Int → List Int
  | [] => coefs
  | xi :: xs => mulOuter (writeFrom coefs i (b.map (fun yj => xi * yj))) (i + 1) b xs

/-- Embeds `Polynomial::mul`: nested enumerated loops accumulating into an
initially empty vector, wrapped with `of_vec`. -/
def mul (p rhs : Polynomial) : Polynomial :=
  of_vec (mulOuter [] 0 rhs.coefs p.coefs)

/-- Embeds `Polynomial::pow`: `exp == 0` gives `of_vec [1]`, `exp == 1` gives
a clone of the receiver, otherwise `self * self.pow(exp - 1)`. -/
def pow (p : Polynomial) : Nat → Polynomial
  | 0 => of_vec [1]
  | 1 => p
  | e + 2 => p.mul (p.pow (e + 1))

/-- The `for (i, xi) in self.coefs.iter().enumerate()` loop of
`Polynomial::apply`: `out.add_inplace(&g.pow(i).mul(&Self::of_vec(&vec![*xi])))`. -/
def applyAux (out g : Polynomial) (i : Nat) : List Int → Polynomial
  | [] => out
  | xi :: xs => applyAux (out.add_inplace ((g.pow i).mul (of_vec [xi]))) g (i + 1) xs

/-- Embeds `Polynomial::apply`: fold the loop over the receiver's
coefficients starting from `Polynomial::new`. -/
def apply (p g : Polynomial) : Polynomial :=
  applyAux new g 0 p.coefs

/-- The accumulator loop of `Polynomial::evaluate`:
`out += x.powf(i as f64) * (*xi as f64)`; `f64` is embedded as `ℚ`. -/
def evalAux (x : ℚ) (out : ℚ) (i : Nat) : List Int → ℚ
  | [] => out
  | c :: cs => evalAux x (out + x ^ i * (c : ℚ)) (i + 1) cs

/-- Embeds `Polynomial::evaluate` over `ℚ` in place of `f64`. -/
def evaluate (p : Polynomial) (x : ℚ) : ℚ := evalAux x 0 0 p.coefs

/-- The `for (i, xi)` loop of `Polynomial::differentiate`: push
`xi * (i as i64)` for every index `i > 0`, skipping index 0. -/
def diffAux (i : Nat) : List Int → List Int
  | [] => []
  | x :: xs => if i > 0 then x * (i : Int) :: diffAux (i + 1) xs else diffAux (i + 1) xs

/-- Embeds `Polynomial::differentiate`. -/
def differentiate (p : Polynomial) : Polynomial :=
  of_vec (diffAux 0 p.coefs)

/-- Embeds `Polynomial::is_zero`: every coefficient entry equals zero. -/
def is_zero (p : Polynomial) : Bool :=
  p.coefs.all (fun x => x == 0)

/-- Embeds `Polynomial::with_var_name`: copies the coefficients, installs the
given label. -/
def with_var_name (p : Polynomial) (v : String) : Polynomial :=
  ⟨p.coefs, v⟩

end Polynomial

/-- Sign of a rational number: 1, -1 or 0. -/
def qsign (x : ℚ) : Int :=
  if 0 < x then 1 else if x < 0 then -1 else 0

/-- Modelled from the spec: the number of equally spaced derivative samples the
classifier takes across the interval (the spec leaves the granularity as an
implementation choice, requiring only that it be deterministic and bounded). -/
def sampleCount : Nat := 16

/-- Modelled from the spec: `sampleCount + 1` equally spaced sample points
across the closed interval `[a, b]`. -/
def samplePoints (a b : ℚ) : List ℚ :=
  (List.range (sampleCount + 1)).map
    (fun k => a + (b - a) * (k : ℚ) / (sampleCount : ℚ))

/-- Modelled from the spec: count strict sign flips between consecutive
samples. -/
def strictFlips : List Int → Nat
  | s :: s' :: rest => (if s * s' < 0 then 1 else 0) + strictFlips (s' :: rest)
  | _ => 0

/-- Modelled from the spec: interior samples where the derivative is exactly
zero count as transition points ("treated as a transition point, not
ignored"). -/
def interiorZeros (signs : List Int) : Nat :=
  (((signs.drop 1).dropLast).filter (fun s => s == 0)).length

/-- Modelled from the spec: recursive interval bisection locating the
derivative's sign change, capped at a fixed depth; the final interval's
midpoint is reported.  `f64` arithmetic is embedded as `ℚ`. -/
def bisect (d : Polynomial) : Nat → ℚ → ℚ → ℚ
  | 0, lo, hi => (lo + hi) / 2
  | n + 1, lo, hi =>
    let mid := (lo + hi) / 2
    if qsign (d.evaluate lo) * qsign (d.evaluate mid) ≤ 0 then bisect d n lo mid
    else bisect d n mid hi

/-- Modelled from the spec: classify the derivative's sign-change count over
`[a, b]`: zero changes is `Nonmodal`, exactly one is `Unimodal` with the mode
located by bisection, two or more is `Multimodal`. -/
def classifySignChanges (d : Polynomial) (a b : ℚ) : Modality :=
  let signs := (samplePoints a b).map (fun x => qsign (d.evaluate x))
  let changes := strictFlips signs + interiorZeros signs
  if changes = 0 then Modality.Nonmodal
  else if changes = 1 then Modality.Unimodal (bisect d 20 a b)
  else Modality.Multimodal

/-- Modelled from the spec: `unimode::find_unimode` (the file
`src/utilities/src/unimode.rs` is absent from the snapshot; only the module
declaration and the caller `find_prob_unimode` appear in `polynomial.rs`).
The spec fixes the branch order: if `p.is_zero()` then `Zero`; else if
`p.differentiate().is_zero()` then `Constant`; else classify the derivative's
sign changes over `(a, b)`. -/
def find_unimode (p : Polynomial) (a b : ℚ) : Modality :=
  if p.is_zero then Modality.Zero
  else if p.differentiate.is_zero then Modality.Constant
  else classifySignChanges p.differentiate a b

/-- Embeds `Polynomial::find_prob_unimode`: delegates to `find_unimode` over
`[0, 1]`. -/
def Polynomial.find_prob_unimode (p : Polynomial) : Modality :=
  find_unimode p 0 1

/-- Fuel-instrumented `pow`: identical recursion, but each recursive call
consumes one unit of fuel, so `powFuel p fuel exp` succeeds exactly when the
recursion depth stays within `fuel`. -/
def Polynomial.powFuel (p : Polynomial) : Nat → Nat → Option Polynomial
  | _, 0 => some (Polynomial.of_vec [1])
  | _, 1 => some p
  | 0, _ + 2 => none
  | f + 1, e + 2 => (Polynomial.powFuel p f (e + 1)).map (fun q => p.mul q)

/-- Fuel-instrumented `applyAux`: the call for coefficient index `i` gives
`pow` exactly `i` units of fuel. -/
def Polynomial.applyAuxFuel (out g : Polynomial) (i : Nat) : List Int → Option Polynomial
  | [] => some out
  | xi :: xs =>
    match Polynomial.powFuel g i i with
    | none => none
    | some gi =>
      Polynomial.applyAuxFuel (out.add_inplace (gi.mul (Polynomial.of_vec [xi]))) g (i + 1) xs

/-- Fuel-instrumented `apply`. -/
def Polynomial.applyFuel (p g : Polynomial) : Option Polynomial :=
  Polynomial.applyAuxFuel Polynomial.new g 0 p.coefs

theorem coefAt_nil (n : Nat) : coefAt [] n = 0 := by
  simp [coefAt]

theorem coefAt_cons_zero (c : Int) (cs : List Int) : coefAt (c :: cs) 0 = c := rfl

theorem coefAt_cons_succ (c : Int) (cs : List Int) (n : Nat) :
    coefAt (c :: cs) (n + 1) = coefAt cs n := rfl

theorem coefAt_of_length_le (l : List Int) (n : Nat) (h : l.length ≤ n) :
    coefAt l n = 0 := by
  induction l generalizing n with
  | nil => simp [coefAt]
  | cons c cs ih =>
    cases n with
    | zero => simp at h
    | succ m => simpa [coefAt_cons_succ] using ih m (by simpa using h)

theorem coefAt_lt (l : List Int) (n : Nat) (h : n < l.length) :
    coefAt l n = l.get ⟨n, h⟩ := by
  induction l generalizing n with
  | nil => simp at h
  | cons c cs ih =>
    cases n with
    | zero => rfl
    | succ m =>
      rw [coefAt_cons_succ]
      exact ih m (by simpa using h)

theorem coefAt_set (l : List Int) (k n : Nat) (w : Int) :
    coefAt (l.set k w) n = if n = k ∧ k < l.length then w else coefAt l n := by
  induction l generalizing k n with
  | nil => simp [coefAt]
  | cons c cs ih =>
    cases k with
    | zero =>
      cases n with
      | zero => simp [List.set, coefAt_cons_zero]
      | succ m => simp [List.set, coefAt_cons_succ]
    | succ k =>
      cases n with
      | zero => simp [List.set, coefAt_cons_zero]
      | succ m => simpa [List.set, coefAt_cons_succ] using ih k m

theorem coefAt_append_single (l : List Int) (v : Int) (n : Nat) :
    coefAt (l ++ [v]) n =
      if n < l.length then coefAt l n else if n = l.length then v else 0 := by
  induction l generalizing n with
  | nil => cases n <;> simp [coefAt_cons_zero, coefAt_cons_succ, coefAt_nil]
  | cons c cs ih =>
    cases n with
    | zero => simp [coefAt_cons_zero]
    | succ m => simpa [coefAt_cons_succ] using ih m

theorem bump_length (coefs : List Int) (k : Nat) (v : Int) (h : k ≤ coefs.length) :
    (Polynomial.bump coefs k v).length = max coefs.length (k + 1) := by
  unfold Polynomial.bump
  split
  · simp; omega
  · simp; omega

theorem bump_coefAt (coefs : List Int) (k : Nat) (v : Int) (h : k ≤ coefs.length)
    (n : Nat) :
    coefAt (Polynomial.bump coefs k v) n = coefAt coefs n + if n = k then v else 0 := by
  unfold Polynomial.bump
  split
  case isTrue hk =>
    rw [coefAt_set]
    rcases eq_or_ne n k with rfl | hne
    · simp [hk, coefAt_lt coefs n hk]
    · simp [hne]
  case isFalse hk =>
    have hk' : k = coefs.length := by omega
    rw [coefAt_append_single]
    rcases Nat.lt_trichotomy n coefs.length with hlt | heq | hgt
    · have : n ≠ k := by omega
      simp [hlt, this]
    · subst hk'
      rw [heq]
      simp [coefAt_of_length_le coefs coefs.length (le_refl _)]
    · have h0 : coefAt coefs n = 0 := coefAt_of_length_le _ _ (by omega)
      have h1 : ¬ n < coefs.length := by omega
      have h2 : n ≠ coefs.length := by omega
      have h3 : n ≠ k := by omega
      simp [h0, h1, h2, h3]

theorem writeFrom_length (vs : List Int) :
    ∀ (coefs : List Int) (k : Nat), k ≤ coefs.length →
      (Polynomial.writeFrom coefs k vs).length = max coefs.length (k + vs.length) := by
  induction vs with
  | nil =>
    intro coefs k h
    simp [Polynomial.writeFrom]
    omega
  | cons v vs ih =>
    intro coefs k h
    rw [Polynomial.writeFrom]
    rw [ih (Polynomial.bump coefs k v) (k + 1) (by rw [bump_length _ _ _ h]; omega)]
    rw [bump_length _ _ _ h]
    simp
    omega

theorem writeFrom_coefAt (vs : List Int) :
    ∀ (coefs : List Int) (k : Nat), k ≤ coefs.length → ∀ (n : Nat),
      coefAt (Polynomial.writeFrom coefs k vs) n =
        coefAt coefs n + if k ≤ n then coefAt vs (n - k) else 0 := by
  induction vs with
  | nil =>
    intro coefs k h n
    simp [Polynomial.writeFrom, coefAt_nil]
  | cons v vs ih =>
    intro coefs k h n
    rw [Polynomial.writeFrom]
    rw [ih (Polynomial.bump coefs k v) (k + 1) (by rw [bump_length _ _ _ h]; omega) n]
    rw [bump_coefAt _ _ _ h]
    rcases Nat.lt_trichotomy n k with hlt | heq | hgt
    · have h1 : n ≠ k := by omega
      have h2 : ¬ k ≤ n := by omega
      have h3 : ¬ k + 1 ≤ n := by omega
      simp [h1, h2, h3]
    · subst heq
      have h3 : ¬ n + 1 ≤ n := by omega
      simp [h3, coefAt_cons_zero]
    · have h1 : n ≠ k := by omega
      have h2 : k ≤ n := by omega
      have h3 : k + 1 ≤ n := by omega
      have h4 : n - k = (n - (k + 1)) + 1 := by omega
      simp [h1, h2, h3, h4, coefAt_cons_succ]

theorem coefAt_map_neg (l : List Int) (n : Nat) :
    coefAt (l.map (fun y => -y)) n = - coefAt l n := by
  induction l generalizing n with
  | nil => simp [coefAt]
  | cons c cs ih =>
    cases n with
    | zero => simp [coefAt_cons_zero]
    | succ m => simpa [coefAt_cons_succ] using ih m

theorem coefAt_map_mul (a : Int) (l : List Int) (n : Nat) :
    coefAt (l.map (fun y => a * y)) n = a * coefAt l n := by
  induction l generalizing n with
  | nil => simp [coefAt]
  | cons c cs ih =>
    cases n with
    | zero => simp [coefAt_cons_zero]
    | succ m => simpa [coefAt_cons_succ] using ih m

theorem add_length (p q : Polynomial) :
    (p.add q).coefs.length = max p.coefs.length q.coefs.length := by
  have h := writeFrom_length q.coefs p.coefs 0 (Nat.zero_le _)
  simpa [Polynomial.add, Polynomial.add_vec_inplace, Polynomial.of_vec] using h

theorem add_coefAt (p q : Polynomial) (n : Nat) :
    coefAt (p.add q).coefs n = coefAt p.coefs n + coefAt q.coefs n := by
  have h := writeFrom_coefAt q.coefs p.coefs 0 (Nat.zero_le _) n
  simpa [Polynomial.add, Polynomial.add_vec_inplace, Polynomial.of_vec] using h

theorem sub_length (p q : Polynomial) :
    (p.sub q).coefs.length = max p.coefs.length q.coefs.length := by
  have h := writeFrom_length (q.coefs.map (fun y => -y)) p.coefs 0 (Nat.zero_le _)
  simpa [Polynomial.sub, Polynomial.sub_vec_inplace, Polynomial.of_vec] using h

theorem sub_coefAt (p q : Polynomial) (n : Nat) :
    coefAt (p.sub q).coefs n = coefAt p.coefs n - coefAt q.coefs n := by
  have h := writeFrom_coefAt (q.coefs.map (fun y => -y)) p.coefs 0 (Nat.zero_le _) n
  simp [Polynomial.sub, Polynomial.sub_vec_inplace, Polynomial.of_vec] at h ⊢
  rw [h, coefAt_map_neg]
  ring

theorem diffAux_length (cs : List Int) :
    ∀ i : Nat, 1 ≤ i → (Polynomial.diffAux i cs).length = cs.length := by
  induction cs with
  | nil => intro i hi; simp [Polynomial.diffAux]
  | cons c cs ih =>
    intro i hi
    have hpos : 0 < i := hi
    simp only [Polynomial.diffAux, if_pos hpos, List.length_cons, ih (i + 1) (by omega)]

theorem diffAux_coefAt (cs : List Int) :
    ∀ i : Nat, 1 ≤ i → ∀ n : Nat,
      coefAt (Polynomial.diffAux i cs) n = coefAt cs n * ((i : Int) + n) := by
  induction cs with
  | nil => intro i hi n; simp [Polynomial.diffAux, coefAt_nil]
  | cons c cs ih =>
    intro i hi n
    have hpos : 0 < i := hi
    simp only [Polynomial.diffAux, if_pos hpos]
    cases n with
    | zero =>
      rw [coefAt_cons_zero, coefAt_cons_zero]
      push_cast
      ring
    | succ m =>
      rw [coefAt_cons_succ, coefAt_cons_succ, ih (i + 1) (by omega) m]
      push_cast
      ring

theorem differentiate_coefs_nil (p : Polynomial) (h : p.coefs = []) :
    p.differentiate.coefs = [] := by
  simp [Polynomial.differentiate, Polynomial.of_vec, h, Polynomial.diffAux]

theorem differentiate_coefs_cons (p : Polynomial) (c : Int) (cs : List Int)
    (h : p.coefs = c :: cs) :
    p.differentiate.coefs = Polynomial.diffAux 1 cs := by
  simp [Polynomial.differentiate, Polynomial.of_vec, h, Polynomial.diffAux]

theorem differentiate_length (p : Polynomial) (h : p.coefs ≠ []) :
    p.differentiate.coefs.length = p.coefs.length - 1 := by
  cases hc : p.coefs with
  | nil => exact absurd hc h
  | cons c cs =>
    rw [differentiate_coefs_cons p c cs hc]
    rw [diffAux_length cs 1 (le_refl _)]
    simp only [List.length_cons, Nat.add_sub_cancel]

theorem differentiate_coefAt (p : Polynomial) (i : Nat) (hi : 1 ≤ i) :
    coefAt p.differentiate.coefs (i - 1) = (i : Int) * coefAt p.coefs i := by
  cases hc : p.coefs with
  | nil =>
    rw [differentiate_coefs_nil p hc]
    simp [coefAt_nil]
  | cons c cs =>
    rw [differentiate_coefs_cons p c cs hc]
    obtain ⟨j, rfl⟩ : ∃ j, i = j + 1 := ⟨i - 1, by omega⟩
    simp only [Nat.add_sub_cancel]
    rw [diffAux_coefAt cs 1 (le_refl _) j, coefAt_cons_succ]
    push_cast
    ring

theorem mulOuter_nil_b (xs : List Int) :
    ∀ (coefs : List Int) (i : Nat), Polynomial.mulOuter coefs i [] xs = coefs := by
  induction xs with
  | nil => intro coefs i; rfl
  | cons x xs ih =>
    intro coefs i
    simp only [Polynomial.mulOuter, List.map_nil, Polynomial.writeFrom]
    exact ih coefs (i + 1)

theorem mulOuter_coefAt (b : List Int) (hb : b ≠ []) (xs : List Int) :
    ∀ (coefs : List Int) (i : Nat), i ≤ coefs.length → ∀ n : Nat,
      coefAt (Polynomial.mulOuter coefs i b xs) n =
        coefAt coefs n +
          ∑ t ∈ Finset.range xs.length,
            (if i + t ≤ n then coefAt xs t * coefAt b (n - (i + t)) else 0) := by
  induction xs with
  | nil =>
    intro coefs i h n
    simp [Polynomial.mulOuter]
  | cons x xs ih =>
    intro coefs i h n
    have hb1 : 1 ≤ b.length := by
      cases b with
      | nil => exact absurd rfl hb
      | cons y ys => simp
    have hlen : (Polynomial.writeFrom coefs i (b.map (fun yj => x * yj))).length =
        max coefs.length (i + b.length) := by
      simpa using writeFrom_length (b.map (fun yj => x * yj)) coefs i h
    rw [Polynomial.mulOuter]
    rw [ih _ (i + 1) (by rw [hlen]; omega) n]
    rw [writeFrom_coefAt _ coefs i h n, coefAt_map_mul]
    rw [List.length_cons, Finset.sum_range_succ']
    have hsum : ∀ t : Nat, i + 1 + t = i + (t + 1) := by omega
    simp only [hsum, coefAt_cons_succ, coefAt_cons_zero, Nat.add_zero]
    ring

theorem filter_range_le (M n : Nat) :
    Finset.filter (fun t => t ≤ n) (Finset.range M) =
      Finset.range (min M (n + 1)) := by
  ext t
  simp only [Finset.mem_filter, Finset.mem_range, Nat.lt_min]
  omega

theorem mul_coefAt (p q : Polynomial) (n : Nat) :
    coefAt (p.mul q).coefs n =
      ∑ k ∈ Finset.range (n + 1), coefAt p.coefs k * coefAt q.coefs (n - k) := by
  by_cases hq : q.coefs = []
  · have h1 : (p.mul q).coefs = [] := by
      simp [Polynomial.mul, Polynomial.of_vec, hq, mulOuter_nil_b]
    rw [h1, coefAt_nil]
    symm
    apply Finset.sum_eq_zero
    intro k hk
    simp [hq, coefAt_nil]
  · have h := mulOuter_coefAt q.coefs hq p.coefs [] 0 (by simp) n
    have hmul : (p.mul q).coefs = Polynomial.mulOuter [] 0 q.coefs p.coefs := rfl
    rw [hmul, h, coefAt_nil, zero_add]
    simp only [Nat.zero_add]
    have step1 : ∑ t ∈ Finset.range p.coefs.length,
          (if t ≤ n then coefAt p.coefs t * coefAt q.coefs (n - t) else 0)
        = ∑ t ∈ Finset.range (max p.coefs.length (n + 1)),
          (if t ≤ n then coefAt p.coefs t * coefAt q.coefs (n - t) else 0) := by
      apply Finset.sum_subset
      · apply Finset.range_subset.mpr
        omega
      · intro t ht hnt
        simp only [Finset.mem_range] at ht hnt
        have hle : p.coefs.length ≤ t := by omega
        simp [coefAt_of_length_le p.coefs t hle]
    rw [step1, ← Finset.sum_filter, filter_range_le]
    have hmin : min (max p.coefs.length (n + 1)) (n + 1) = n + 1 := by omega
    rw [hmin]

theorem mulOuter_length (b : List Int) (hb : b ≠ []) :
    ∀ (xs : List Int), xs ≠ [] → ∀ (coefs : List Int) (i : Nat), i ≤ coefs.length →
      (Polynomial.mulOuter coefs i b xs).length =
        max coefs.length (i + xs.length - 1 + b.length) := by
  intro xs
  induction xs with
  | nil => intro h; exact absurd rfl h
  | cons x xs ih =>
    intro _ coefs i h
    have hb1 : 1 ≤ b.length := by
      cases b with
      | nil => exact absurd rfl hb
      | cons y ys => simp
    have hlen : (Polynomial.writeFrom coefs i (b.map (fun yj => x * yj))).length =
        max coefs.length (i + b.length) := by
      simpa using writeFrom_length (b.map (fun yj => x * yj)) coefs i h
    rw [Polynomial.mulOuter]
    cases xs with
    | nil =>
      simp only [Polynomial.mulOuter]
      rw [hlen]
      simp only [List.length_cons, List.length_nil]
      omega
    | cons x2 xs2 =>
      rw [ih (by simp) _ (i + 1) (by rw [hlen]; omega)]
      rw [hlen]
      simp only [List.length_cons]
      omega

theorem mul_length (p q : Polynomial) (hp : p.coefs ≠ []) (hq : q.coefs ≠ []) :
    (p.mul q).coefs.length = p.coefs.length + q.coefs.length - 1 := by
  have h := mulOuter_length q.coefs hq p.coefs hp [] 0 (by simp)
  have hmul : (p.mul q).coefs = Polynomial.mulOuter [] 0 q.coefs p.coefs := rfl
  have h1 : 0 < p.coefs.length := List.length_pos.mpr hp
  have h2 : 0 < q.coefs.length := List.length_pos.mpr hq
  rw [hmul, h]
  simp only [List.length_nil]
  omega

theorem mul_coefs_empty (p q : Polynomial) (h : p.coefs = [] ∨ q.coefs = []) :
    (p.mul q).coefs = [] := by
  rcases h with h | h
  · simp [Polynomial.mul, Polynomial.of_vec, h, Polynomial.mulOuter]
  · simp [Polynomial.mul, Polynomial.of_vec, h, mulOuter_nil_b]

theorem pow_two_step (p : Polynomial) (e : Nat) :
    p.pow (e + 2) = p.mul (p.pow (e + 1)) := rfl

theorem mul_single_coefAt (A : Polynomial) (x : Int) (n : Nat) :
    coefAt (A.mul (Polynomial.of_vec [x])).coefs n = coefAt A.coefs n * x := by
  rw [mul_coefAt, Finset.sum_range_succ]
  have hz : ∀ k ∈ Finset.range n,
      coefAt A.coefs k * coefAt (Polynomial.of_vec [x]).coefs (n - k) = 0 := by
    intro k hk
    simp only [Finset.mem_range] at hk
    have h1 : coefAt (Polynomial.of_vec [x]).coefs (n - k) = 0 :=
      coefAt_of_length_le _ _ (by simp [Polynomial.of_vec]; omega)
    simp [h1]
  rw [Finset.sum_eq_zero hz, zero_add, Nat.sub_self]
  rfl

theorem add_inplace_coefAt (p r : Polynomial) (n : Nat) :
    coefAt (p.add_inplace r).coefs n = coefAt p.coefs n + coefAt r.coefs n := by
  have h := writeFrom_coefAt r.coefs p.coefs 0 (Nat.zero_le _) n
  simpa [Polynomial.add_inplace, Polynomial.add_vec_inplace] using h

theorem applyAux_coefAt (g : Polynomial) (xs : List Int) :
    ∀ (out : Polynomial) (i n : Nat),
      coefAt (Polynomial.applyAux out g i xs).coefs n =
        coefAt out.coefs n +
          ∑ t ∈ Finset.range xs.length, coefAt xs t * coefAt (g.pow (i + t)).coefs n := by
  induction xs with
  | nil =>
    intro out i n
    simp [Polynomial.applyAux]
  | cons x xs ih =>
    intro out i n
    rw [Polynomial.applyAux]
    rw [ih _ (i + 1) n]
    rw [add_inplace_coefAt, mul_single_coefAt]
    rw [List.length_cons, Finset.sum_range_succ']
    have hsum : ∀ t : Nat, i + 1 + t = i + (t + 1) := by omega
    simp only [hsum, coefAt_cons_succ, coefAt_cons_zero, Nat.add_zero]
    ring

theorem apply_coefAt (p g : Polynomial) (n : Nat) :
    coefAt (p.apply g).coefs n =
      ∑ i ∈ Finset.range p.coefs.length, coefAt p.coefs i * coefAt (g.pow i).coefs n := by
  have h := applyAux_coefAt g p.coefs Polynomial.new 0 n
  simpa [Polynomial.apply, Polynomial.new, coefAt_nil] using h

theorem powFuel_eq (p : Polynomial) :
    ∀ (exp fuel : Nat), exp ≤ fuel → Polynomial.powFuel p fuel exp = some (p.pow exp) := by
  intro exp
  induction exp with
  | zero =>
    intro fuel h
    cases fuel <;> rfl
  | succ e ih =>
    intro fuel h
    cases e with
    | zero => cases fuel <;> rfl
    | succ e2 =>
      cases fuel with
      | zero => omega
      | succ f =>
        rw [Polynomial.powFuel]
        rw [ih f (by omega)]
        rfl

theorem applyAuxFuel_eq (g : Polynomial) (xs : List Int) :
    ∀ (out : Polynomial) (i : Nat),
      Polynomial.applyAuxFuel out g i xs = some (Polynomial.applyAux out g i xs) := by
  induction xs with
  | nil => intro out i; rfl
  | cons x xs ih =>
    intro out i
    rw [Polynomial.applyAuxFuel, Polynomial.applyAux, powFuel_eq g i i (le_refl i)]
    exact ih _ (i + 1)

theorem applyFuel_eq (p g : Polynomial) :
    p.applyFuel g = some (p.apply g) := by
  simpa [Polynomial.applyFuel, Polynomial.apply] using
    applyAuxFuel_eq g p.coefs Polynomial.new 0

theorem applyAux_var_name (g : Polynomial) (xs : List Int) :
    ∀ (out : Polynomial) (i : Nat),
      (Polynomial.applyAux out g i xs).var_name = out.var_name := by
  induction xs with
  | nil => intro out i; rfl
  | cons x xs ih =>
    intro out i
    rw [Polynomial.applyAux]
    exact ih _ (i + 1)

theorem pow_congr (p q : Polynomial) (hp : p.coefs = q.coefs) :
    ∀ n, (p.pow n).coefs = (q.pow n).coefs
  | 0 => rfl
  | 1 => hp
  | e + 2 => by
    have h1 := pow_congr p q hp (e + 1)
    show (p.mul (p.pow (e + 1))).coefs = (q.mul (q.pow (e + 1))).coefs
    simp only [Polynomial.mul, Polynomial.of_vec, h1, hp]

theorem mul_congr (p p' q q' : Polynomial) (hp : p.coefs = p'.coefs)
    (hq : q.coefs = q'.coefs) : p.mul q = p'.mul q' := by
  simp only [Polynomial.mul, Polynomial.of_vec, hp, hq]

theorem applyAux_congr (g g' : Polynomial) (hg : g.coefs = g'.coefs) (xs : List Int) :
    ∀ (out out' : Polynomial) (i : Nat), out.coefs = out'.coefs →
      (Polynomial.applyAux out g i xs).coefs = (Polynomial.applyAux out' g' i xs).coefs := by
  induction xs with
  | nil => intro out out' i hout; exact hout
  | cons x xs ih =>
    intro out out' i hout
    rw [Polynomial.applyAux, Polynomial.applyAux]
    apply ih
    simp only [Polynomial.add_inplace, Polynomial.add_vec_inplace]
    have hmulc : ((g.pow i).mul (Polynomial.of_vec [x])).coefs =
        ((g'.pow i).mul (Polynomial.of_vec [x])).coefs := by
      rw [mul_congr (g.pow i) (g'.pow i) (Polynomial.of_vec [x]) (Polynomial.of_vec [x])
        (pow_congr g g' hg i) rfl]
    rw [hout, hmulc]

theorem differentiate_congr (p p' : Polynomial) (hp : p.coefs = p'.coefs) :
    p.differentiate = p'.differentiate := by
  simp only [Polynomial.differentiate, Polynomial.of_vec, hp]

theorem find_unimode_congr (p p' : Polynomial) (hp : p.coefs = p'.coefs) (a b : ℚ) :
    find_unimode p a b = find_unimode p' a b := by
  have hz : p.is_zero = p'.is_zero := by simp only [Polynomial.is_zero, hp]
  have hd : p.differentiate = p'.differentiate := differentiate_congr p p' hp
  simp only [find_unimode, hz, hd]

/-- C1: for every polynomial `p`, the classifier over the closed interval
[0,1] (`find_prob_unimode`) returns `Zero` when `p.is_zero()` holds, and
otherwise returns `Constant` when `p.differentiate().is_zero()` holds.  The
classifier body is modelled from the spec (see `find_unimode`), since the
`unimode` module is absent from the repository snapshot. -/
theorem C1_classifier_trivial_branches (p : Polynomial) :
    (p.is_zero = true → p.find_prob_unimode = Modality.Zero) ∧
    (p.is_zero = false → p.differentiate.is_zero = true →
      p.find_prob_unimode = Modality.Constant) := by
  constructor
  · intro h
    simp [Polynomial.find_prob_unimode, find_unimode, h]
  · intro h1 h2
    simp [Polynomial.find_prob_unimode, find_unimode, h1, h2]

/-- Witness for C1 at the zero polynomial `[0, 0]` and the nonzero constant
polynomial `[5]`. -/
theorem C1_classifier_trivial_branches_witness :
    (Polynomial.of_vec [0, 0]).find_prob_unimode = Modality.Zero ∧
    (Polynomial.of_vec [5]).find_prob_unimode = Modality.Constant :=
  ⟨(C1_classifier_trivial_branches (Polynomial.of_vec [0, 0])).1 (by decide),
   (C1_classifier_trivial_branches (Polynomial.of_vec [5])).2 (by decide) (by decide)⟩

/-- C2 counterexample: the claim says the coefficient-sequence length shrinks
by exactly one for every polynomial, but differentiating the empty polynomial
yields the empty sequence again (length 0, not one less than 0). -/
theorem C2_differentiate_length_counterexample :
    ¬ ((Polynomial.of_vec []).differentiate.coefs.length + 1 =
        (Polynomial.of_vec []).coefs.length) := by
  decide

/-- C2 (amended): `differentiate` returns a polynomial whose coefficient at
index `i-1` equals `i * coef_i` for every `i ≥ 1`; when `p`'s sequence is
nonempty the constant term is dropped and the length shrinks by exactly one;
when `p`'s sequence is empty the result is empty. -/
theorem C2_differentiate_amended (p : Polynomial) :
    (∀ i : Nat, 1 ≤ i →
      coefAt p.differentiate.coefs (i - 1) = (i : Int) * coefAt p.coefs i) ∧
    (p.coefs ≠ [] → p.differentiate.coefs.length = p.coefs.length - 1) ∧
    (p.coefs = [] → p.differentiate.coefs = []) :=
  ⟨fun i hi => differentiate_coefAt p i hi,
   fun h => differentiate_length p h,
   fun h => differentiate_coefs_nil p h⟩

/-- Witness for C2 (amended) at `p = [3, 4, 5]`, index `i = 2`. -/
theorem C2_differentiate_amended_witness :
    coefAt (Polynomial.of_vec [3, 4, 5]).differentiate.coefs 1 =
      ((2 : Nat) : Int) * coefAt (Polynomial.of_vec [3, 4, 5]).coefs 2 ∧
    (Polynomial.of_vec [3, 4, 5]).differentiate.coefs.length = 2 :=
  ⟨by exact (C2_differentiate_amended (Polynomial.of_vec [3, 4, 5])).1 2 (by decide),
   by exact (C2_differentiate_amended (Polynomial.of_vec [3, 4, 5])).2.1 (by decide)⟩

/-- C3: `mul` is the full discrete convolution — the result coefficient at
index `k` is the sum over `i + j = k` of the operand coefficients — and the
result length is `len(a) + len(b) - 1` when both operand sequences are
nonempty, and 0 when either is empty. -/
theorem C3_mul_convolution (a b : Polynomial) :
    (∀ k : Nat, coefAt (a.mul b).coefs k =
      ∑ i ∈ Finset.range (k + 1), coefAt a.coefs i * coefAt b.coefs (k - i)) ∧
    (a.coefs ≠ [] → b.coefs ≠ [] →
      (a.mul b).coefs.length = a.coefs.length + b.coefs.length - 1) ∧
    (a.coefs = [] ∨ b.coefs = [] → (a.mul b).coefs.length = 0) :=
  ⟨fun k => mul_coefAt a b k,
   fun ha hb => mul_length a b ha hb,
   fun h => by rw [mul_coefs_empty a b h]; rfl⟩

/-- Witness for C3 at `a = [1, 2]`, `b = [3, 4]`, coefficient index 1. -/
theorem C3_mul_convolution_witness :
    coefAt ((Polynomial.of_vec [1, 2]).mul (Polynomial.of_vec [3, 4])).coefs 1 =
      ∑ i ∈ Finset.range 2,
        coefAt (Polynomial.of_vec [1, 2]).coefs i *
          coefAt (Polynomial.of_vec [3, 4]).coefs (1 - i) ∧
    ((Polynomial.of_vec [1, 2]).mul (Polynomial.of_vec [3, 4])).coefs.length = 3 :=
  ⟨by exact (C3_mul_convolution (Polynomial.of_vec [1, 2]) (Polynomial.of_vec [3, 4])).1 1,
   by exact ((C3_mul_convolution (Polynomial.of_vec [1, 2]) (Polynomial.of_vec [3, 4])).2.1
     (by decide) (by decide))⟩

/-- C4: `add` (and `sub` with difference in place of sum) is the pairwise
coefficient sum by exponent index, missing high-order coefficients of the
shorter operand counting as zero, and the result length is the max of the two
operand lengths. -/
theorem C4_add_sub_pointwise (a b : Polynomial) :
    ((a.add b).coefs.length = max a.coefs.length b.coefs.length) ∧
    (∀ k : Nat, coefAt (a.add b).coefs k = coefAt a.coefs k + coefAt b.coefs k) ∧
    ((a.sub b).coefs.length = max a.coefs.length b.coefs.length) ∧
    (∀ k : Nat, coefAt (a.sub b).coefs k = coefAt a.coefs k - coefAt b.coefs k) :=
  ⟨add_length a b, add_coefAt a b, sub_length a b, sub_coefAt a b⟩

/-- C5: `p.add(q).sub(q)` is coefficient-wise equal to `p` — the same value at
every exponent, regardless of trailing zero padding or raw sequence length. -/
theorem C5_add_sub_roundtrip (p q : Polynomial) (n : Nat) :
    coefAt ((p.add q).sub q).coefs n = coefAt p.coefs n := by
  rw [sub_coefAt, add_coefAt]
  ring

/-- C6: `pow 0` is the multiplicative identity with coefficient sequence
`[1]`, `pow 1` returns the receiver unchanged, and for every `exp ≥ 2`,
`pow exp` equals `self.mul (self.pow (exp - 1))`. -/
theorem C6_pow_spec (p : Polynomial) :
    (p.pow 0).coefs = [1] ∧ p.pow 1 = p ∧
    ∀ e : Nat, 2 ≤ e → p.pow e = p.mul (p.pow (e - 1)) := by
  refine ⟨rfl, rfl, ?_⟩
  intro e he
  obtain ⟨e2, rfl⟩ : ∃ e2, e = e2 + 2 := ⟨e - 2, by omega⟩
  exact pow_two_step p e2

/-- Witness for C6 at `p = [1, 2]` and `exp = 3`. -/
theorem C6_pow_spec_witness :
    ((Polynomial.of_vec [1, 2]).pow 0).coefs = [1] ∧
    (Polynomial.of_vec [1, 2]).pow 1 = Polynomial.of_vec [1, 2] ∧
    (Polynomial.of_vec [1, 2]).pow 3 =
      (Polynomial.of_vec [1, 2]).mul ((Polynomial.of_vec [1, 2]).pow 2) :=
  ⟨(C6_pow_spec (Polynomial.of_vec [1, 2])).1,
   (C6_pow_spec (Polynomial.of_vec [1, 2])).2.1,
   by exact (C6_pow_spec (Polynomial.of_vec [1, 2])).2.2 3 (by decide)⟩

/-- C7: `apply` substitutes `g` for the variable: the result is
coefficient-wise the sum over every index `i` of `coef_i` times `g`
raised to the power `i`. -/
theorem C7_apply_composition (p g : Polynomial) (n : Nat) :
    coefAt (p.apply g).coefs n =
      ∑ i ∈ Finset.range p.coefs.length,
        coefAt p.coefs i * coefAt (g.pow i).coefs n :=
  apply_coefAt p g n

/-- C8: two-run noninterference in `variable_name` — two polynomials with
equal coefficient sequences but possibly different variable names produce
results with equal coefficient sequences, equal numeric values, and equal
classifications under every operation. -/
theorem C8_var_name_noninterference (p p' q q' : Polynomial) (x : ℚ) (e : Nat)
    (hp : p.coefs = p'.coefs) (hq : q.coefs = q'.coefs) :
    (p.add q).coefs = (p'.add q').coefs ∧
    (p.sub q).coefs = (p'.sub q').coefs ∧
    (p.mul q).coefs = (p'.mul q').coefs ∧
    (p.pow e).coefs = (p'.pow e).coefs ∧
    (p.apply q).coefs = (p'.apply q').coefs ∧
    p.differentiate.coefs = p'.differentiate.coefs ∧
    p.evaluate x = p'.evaluate x ∧
    p.is_zero = p'.is_zero ∧
    p.find_prob_unimode = p'.find_prob_unimode := by
  refine ⟨?_, ?_, ?_, ?_, ?_, ?_, ?_, ?_, ?_⟩
  · simp only [Polynomial.add, Polynomial.add_vec_inplace, Polynomial.of_vec, hp, hq]
  · simp only [Polynomial.sub, Polynomial.sub_vec_inplace, Polynomial.of_vec, hp, hq]
  · rw [mul_congr p p' q q' hp hq]
  · exact pow_congr p p' hp e
  · rw [Polynomial.apply, Polynomial.apply, hp]
    exact applyAux_congr q q' hq p'.coefs Polynomial.new Polynomial.new 0 rfl
  · exact congrArg Polynomial.coefs (differentiate_congr p p' hp)
  · simp only [Polynomial.evaluate, hp]
  · simp only [Polynomial.is_zero, hp]
  · simp only [Polynomial.find_prob_unimode]
    exact find_unimode_congr p p' hp 0 1

/-- Witness for C8: `[1, 2]` relabelled "x" against `[1, 2]`, and `[0, 1]`
relabelled "t" against `[0, 1]`, at `x = 1/2` and `e = 2`. -/
theorem C8_var_name_noninterference_witness :
    (((Polynomial.of_vec [1, 2]).with_var_name "x").add
        ((Polynomial.of_vec [0, 1]).with_var_name "t")).coefs =
      ((Polynomial.of_vec [1, 2]).add (Polynomial.of_vec [0, 1])).coefs ∧
    (((Polynomial.of_vec [1, 2]).with_var_name "x").sub
        ((Polynomial.of_vec [0, 1]).with_var_name "t")).coefs =
      ((Polynomial.of_vec [1, 2]).sub (Polynomial.of_vec [0, 1])).coefs ∧
    (((Polynomial.of_vec [1, 2]).with_var_name "x").mul
        ((Polynomial.of_vec [0, 1]).with_var_name "t")).coefs =
      ((Polynomial.of_vec [1, 2]).mul (Polynomial.of_vec [0, 1])).coefs ∧
    (((Polynomial.of_vec [1, 2]).with_var_name "x").pow 2).coefs =
      ((Polynomial.of_vec [1, 2]).pow 2).coefs ∧
    (((Polynomial.of_vec [1, 2]).with_var_name "x").apply
        ((Polynomial.of_vec [0, 1]).with_var_name "t")).coefs =
      ((Polynomial.of_vec [1, 2]).apply (Polynomial.of_vec [0, 1])).coefs ∧
    ((Polynomial.of_vec [1, 2]).with_var_name "x").differentiate.coefs =
      (Polynomial.of_vec [1, 2]).differentiate.coefs ∧
    ((Polynomial.of_vec [1, 2]).with_var_name "x").evaluate (1 / 2) =
      (Polynomial.of_vec [1, 2]).evaluate (1 / 2) ∧
    ((Polynomial.of_vec [1, 2]).with_var_name "x").is_zero =
      (Polynomial.of_vec [1, 2]).is_zero ∧
    ((Polynomial.of_vec [1, 2]).with_var_name "x").find_prob_unimode =
      (Polynomial.of_vec [1, 2]).find_prob_unimode :=
  C8_var_name_noninterference ((Polynomial.of_vec [1, 2]).with_var_name "x")
    (Polynomial.of_vec [1, 2]) ((Polynomial.of_vec [0, 1]).with_var_name "t")
    (Polynomial.of_vec [0, 1]) (1 / 2) 2 rfl rfl

/-- C9: the recursion of `pow` is well-founded and decreasing on `exp` — the
fuel-instrumented `powFuel` succeeds whenever it is given at least `exp` units
of fuel and returns exactly `pow` — and the calls `apply` makes through `pow`
(exactly `i` units of fuel at coefficient index `i`) all terminate, so
`applyFuel` returns exactly `apply`. -/
theorem C9_pow_apply_termination (p g : Polynomial) (exp fuel : Nat)
    (h : exp ≤ fuel) :
    Polynomial.powFuel p fuel exp = some (p.pow exp) ∧
    p.applyFuel g = some (p.apply g) :=
  ⟨powFuel_eq p exp fuel h, applyFuel_eq p g⟩

/-- Witness for C9 at `p = [1, 2]`, `g = [0, 1]`, `exp = fuel = 3`. -/
theorem C9_pow_apply_termination_witness :
    Polynomial.powFuel (Polynomial.of_vec [1, 2]) 3 3 =
      some ((Polynomial.of_vec [1, 2]).pow 3) ∧
    (Polynomial.of_vec [1, 2]).applyFuel (Polynomial.of_vec [0, 1]) =
      some ((Polynomial.of_vec [1, 2]).apply (Polynomial.of_vec [0, 1])) :=
  C9_pow_apply_termination (Polynomial.of_vec [1, 2]) (Polynomial.of_vec [0, 1])
    3 3 (by decide)

/-- C10: every out-of-place arithmetic result — `add`, `sub`, `mul`,
`differentiate`, `apply` — carries the default variable name "p" regardless of
the operands' labels; `pow` with exponent exactly 1 returns the receiver (so
it alone preserves a custom label), and `pow` at any other exponent also
yields the default name. -/
theorem C10_arithmetic_resets_label (p q : Polynomial) :
    (p.add q).var_name = "p" ∧
    (p.sub q).var_name = "p" ∧
    (p.mul q).var_name = "p" ∧
    p.differentiate.var_name = "p" ∧
    (p.apply q).var_name = "p" ∧
    p.pow 1 = p ∧
    (∀ e : Nat, e ≠ 1 → (p.pow e).var_name = "p") := by
  refine ⟨rfl, rfl, rfl, rfl, ?_, rfl, ?_⟩
  · exact applyAux_var_name q p.coefs Polynomial.new 0
  · intro e he
    match e with
    | 0 => rfl
    | 1 => exact absurd rfl he
    | e2 + 2 => rfl

/-- Witness for C10 at a receiver whose label was customised to "x" via
`with_var_name`, with `e = 3`. -/
theorem C10_arithmetic_resets_label_witness :
    (((Polynomial.of_vec [1, 2]).with_var_name "x").add
      (Polynomial.of_vec [3])).var_name = "p" ∧
    (((Polynomial.of_vec [1, 2]).with_var_name "x").pow 1 =
      (Polynomial.of_vec [1, 2]).with_var_name "x") ∧
    ((((Polynomial.of_vec [1, 2]).with_var_name "x").pow 3).var_name = "p") :=
  ⟨(C10_arithmetic_resets_label ((Polynomial.of_vec [1, 2]).with_var_name "x")
      (Polynomial.of_vec [3])).1,
   (C10_arithmetic_resets_label ((Polynomial.of_vec [1, 2]).with_var_name "x")
      (Polynomial.of_vec [3])).2.2.2.2.2.1,
   (C10_arithmetic_resets_label ((Polynomial.of_vec [1, 2]).with_var_name "x")
      (Polynomial.of_vec [3])).2.2.2.2.2.2 3 (by decide)⟩

end Combi
